import Mathlib

/-!
Verification of the relevance pipeline of `confluence.py`
(framersai/agentos-live-docs).

The development shallowly embeds the pure core of the pipeline:

* Python string primitives used by the code (`str.strip`, `str.split`,
  `str.lower`, `str.splitlines`, `str.rstrip`) are modelled on `List Char`.
  Python's whitespace set is modelled as the six ASCII whitespace
  characters; `\w` of the `re` module is modelled as ASCII alphanumerics
  plus underscore.  Scores computed in Python floats are modelled in `ℚ`
  (the formulas involved are plain field arithmetic).
* External libraries (chardet, sklearn/sentence-transformers) enter the
  model as explicit oracle parameters: the code only consumes their
  results.
-/

namespace Confluence

/-- Python `str` whitespace characters: space, tab, newline, carriage
return, vertical tab, form feed. -/
def pyIsSpace (c : Char) : Bool :=
  c == ' ' || c == '\t' || c == '\n' || c == '\r' || c.toNat == 11 || c.toNat == 12

/-- Remove leading Python whitespace from a character list (`str.lstrip`). -/
def lstripList (l : List Char) : List Char :=
  l.dropWhile pyIsSpace

/-- Remove trailing Python whitespace from a character list (`str.rstrip`). -/
def rstripList (l : List Char) : List Char :=
  (l.reverse.dropWhile pyIsSpace).reverse

/-- Python `str.strip()` with no argument. -/
def pyStrip (s : String) : String :=
  ⟨lstripList (rstripList s.data)⟩

/-- Python `str.rstrip()` with no argument. -/
def pyRstrip (s : String) : String :=
  ⟨rstripList s.data⟩

/-- Python `str.lower()` (ASCII model). -/
def pyLower (s : String) : String :=
  ⟨s.data.map Char.toLower⟩

/-- Helper for `str.split()` with no argument: split on runs of
whitespace, dropping empty fields.  `acc` holds the current word,
reversed. -/
def splitWordsAux : List Char → List Char → List (List Char)
  | [], acc => if acc.isEmpty then [] else [acc.reverse]
  | c :: cs, acc =>
    if pyIsSpace c then
      if acc.isEmpty then splitWordsAux cs [] else acc.reverse :: splitWordsAux cs []
    else
      splitWordsAux cs (c :: acc)

/-- Python `str.split()` with no argument. -/
def pySplit (s : String) : List (List Char) :=
  splitWordsAux s.data []

/-- `approximate_word_count` (confluence.py:264): `len(text.split())`. -/
def approximate_word_count (text : String) : Nat :=
  (pySplit text).length

/-- Model of `\w` for Python's `re` module, restricted to ASCII:
alphanumeric or underscore. -/
def wordChar (c : Char) : Bool :=
  c.isAlphanum || c == '_'

/-- `\w`-ness of an optional character; an absent character (start or end
of the text) counts as a non-word character. -/
def wordCharOpt : Option Char → Bool
  | none => false
  | some c => wordChar c

/-- A `\b` word boundary holds between two (optional) characters iff
exactly one of them is a word character. -/
def atBoundary (a b : Option Char) : Bool :=
  wordCharOpt a != wordCharOpt b

/-- Number of matches of `re.findall(r'\b' + re.escape(pat) + r'\b', text)`:
left-to-right non-overlapping scan; a match requires a word boundary on
each side.  `prev` is the character just before the current position.
An empty pattern matches at every word-boundary position (zero-width;
the scan then advances by one character). -/
def countWholeWord (pat : List Char) (prev : Option Char) (text : List Char) : Nat :=
  match text with
  | [] =>
    if pat.isEmpty && atBoundary prev none then 1 else 0
  | c :: cs =>
    if hp : pat.isEmpty then
      (if atBoundary prev (some c) then 1 else 0) + countWholeWord pat (some c) cs
    else
      if pat.isPrefixOf (c :: cs)
          && atBoundary prev (some c)
          && atBoundary (some (pat.getLastD c)) ((c :: cs).drop pat.length).head? then
        1 + countWholeWord pat (some (pat.getLastD c)) ((c :: cs).drop pat.length)
      else
        countWholeWord pat (some c) cs
termination_by text.length
decreasing_by
  all_goals simp_all [List.length_drop]
  have hne : pat ≠ [] := by
    intro h
    simp [h] at hp
  have h1 : 1 ≤ pat.length := by
    cases pat with
    | nil => exact absurd rfl hne
    | cons a as => simp
  omega

/-- Number of matches `re.findall(r'\b' + re.escape(kw.lower()) + r'\b',
content_lower)` returns for one keyword in `calculate_keyword_score`. -/
def keywordMatchCount (content_lower : String) (kw : String) : Nat :=
  countWholeWord (pyLower kw).data none content_lower.data

/-- The accumulation loop of `calculate_keyword_score`: the pair
`(num_keywords_found, total_frequency)`. -/
def keywordFold (content_lower : String) (keywords : List String) : Nat × Nat :=
  keywords.foldl
    (fun p kw =>
      let m := keywordMatchCount content_lower kw
      if 0 < m then (p.1 + 1, p.2 + m) else p)
    (0, 0)

/-- `calculate_keyword_score` (confluence.py:706).  Scores live in `ℚ`;
the float literals 0.6, 10, 0.4, 1.0 of the source are exact here. -/
def calculate_keyword_score (file_content : String) (keywords : List String) : ℚ :=
  if keywords.isEmpty || file_content == "" then 0
  else
    let content_lower := pyLower file_content
    let fr := keywordFold content_lower keywords
    if fr.1 = 0 then 0
    else
      let distinctComponent : ℚ := ((fr.1 : ℚ) / (keywords.length : ℚ)) * (6 / 10)
      let content_words_approx : ℚ := ((pySplit content_lower).length : ℚ) + 1
      let frequencyComponent : ℚ :=
        min (((fr.2 : ℚ) / content_words_approx) * 10) (4 / 10)
      min (distinctComponent + frequencyComponent) 1

/-- Result quadruple of `calculate_relevance_scores_for_content`. -/
structure RelevanceResult where
  combined : ℚ
  similarity : ℚ
  keyword : ℚ
  matchType : String
deriving Repr, DecidableEq

/-- Python truthiness of the optional prompt string: present and
non-empty. -/
def promptTruthy : Option String → Bool
  | none => false
  | some s => !(s == "")

/-- `calculate_relevance_scores_for_content` (confluence.py:745).
The similarity method the code selects (TF-IDF, or the semantic model,
depending on the processing mode and on which global NLP objects
initialised) is abstracted as the oracle pair `simLabel` / `simOf`: the
label interpolated into the match type, and the score the method
returns for a content string.  A run where no NLP model is available is
the instance `simLabel = "none"`, `simOf = fun _ => 0`. -/
def calculate_relevance_scores_for_content
    (content : String) (search_prompt_content : Option String)
    (search_prompt_keywords : List String)
    (simLabel : String) (simOf : String → ℚ)
    (keyword_boost_factor : ℚ) : RelevanceResult :=
  if content == "" then
    ⟨0, 0, 0, "no_content_to_score"⟩
  else
    let keyword_sim_score : ℚ :=
      if promptTruthy search_prompt_content && !search_prompt_keywords.isEmpty then
        calculate_keyword_score content search_prompt_keywords
      else 0
    let primary_sim_score : ℚ :=
      if promptTruthy search_prompt_content then simOf content else 0
    if promptTruthy search_prompt_content then
      let combined_score : ℚ :=
        if 1 / 1000 < primary_sim_score ∨ 1 / 1000 < keyword_sim_score then
          (primary_sim_score + keyword_sim_score * keyword_boost_factor)
            / (1 + keyword_boost_factor)
        else 0
      let has_significant_primary_sim := (2 / 100 : ℚ) ≤ primary_sim_score
      let has_significant_keyword_sim := (5 / 100 : ℚ) ≤ keyword_sim_score
      let matchType : String :=
        if has_significant_primary_sim ∧ has_significant_keyword_sim then
          simLabel ++ "_and_keyword"
        else if has_significant_keyword_sim then "keyword_dominant"
        else if has_significant_primary_sim then simLabel ++ "_dominant"
        else if combined_score = 0 then "no_discernible_match"
        else "low_scores_no_dominant_match_type"
      ⟨min combined_score 1, primary_sim_score, keyword_sim_score, matchType⟩
    else
      ⟨0, 0, 0, "not_scored_no_search_prompt"⟩

/-- Lexicographic comparison of character lists, modelling Python's
`str.__lt__` (code-point order). -/
def charListLt : List Char → List Char → Bool
  | [], [] => false
  | [], _ :: _ => true
  | _ :: _, [] => false
  | a :: as, b :: bs =>
    if a < b then true
    else if b < a then false
    else charListLt as bs

/-- Python `<` on strings. -/
def pathLt (a b : String) : Bool :=
  charListLt a.data b.data

/-- Python `<=` on strings. -/
def pathLe (a b : String) : Bool :=
  pathLt a b || a == b

/-- The fields of a context record the aggregator's sorts inspect. -/
structure CtxRecord where
  relative_path : String
  relevance_score : ℚ
deriving Repr, DecidableEq

/-- Stable descending insertion on `relevance_score`: the new element
goes before the first element whose score is not greater.  Together
with `sortByScoreDesc` this models Python's stable
`list.sort(key=lambda x: x.get("relevance_score", 0.0), reverse=True)`
(confluence.py:1476): equal keys keep their original relative order. -/
def insertByScoreDesc (x : CtxRecord) : List CtxRecord → List CtxRecord
  | [] => [x]
  | y :: ys =>
    if x.relevance_score < y.relevance_score then y :: insertByScoreDesc x ys
    else x :: y :: ys

def sortByScoreDesc : List CtxRecord → List CtxRecord
  | [] => []
  | x :: xs => insertByScoreDesc x (sortByScoreDesc xs)

/-- Stable ascending insertion on `relative_path`, modelling
`list.sort(key=lambda x: x.get("relative_path", ""))`
(confluence.py:1478). -/
def insertByPathAsc (x : CtxRecord) : List CtxRecord → List CtxRecord
  | [] => [x]
  | y :: ys =>
    if pathLt y.relative_path x.relative_path then y :: insertByPathAsc x ys
    else x :: y :: ys

def sortByPathAsc : List CtxRecord → List CtxRecord
  | [] => []
  | x :: xs => insertByPathAsc x (sortByPathAsc xs)

/-- The aggregator's final ordering of the in-context records
(confluence.py:1474-1478): stable sort on the relevance score,
descending, when a search prompt was used; otherwise sort on the
relative path, ascending. -/
def aggregatorSort (promptUsed : Bool) (l : List CtxRecord) : List CtxRecord :=
  if promptUsed then sortByScoreDesc l else sortByPathAsc l

/-- Inclusion status of a ranked record with respect to the flat output:
fully included, truncated to the remaining budget, or excluded. -/
inductive PackStatus where
  | included
  | partialFit
  | excluded
deriving Repr, DecidableEq

/-- One ranked record as the packing loop sees it: the rendered header
(from `FLATTENED_FILE_HEADER_TEMPLATE`) and the processed content. -/
structure FlatEntry where
  header : String
  content : String
deriving Repr, DecidableEq

/-- The flat-output packing loop (confluence.py:1573-1612), reduced to
the inclusion decision it takes per record.  `cur` is
`current_word_count_for_flat_output`.  If header plus full content fit
the remaining budget the record is included and the count advances; else
if at least the header fits strictly below the budget the record is
packed truncated (`partialFit`) and the loop breaks; else the record is
marked not included and the loop breaks.  Records the broken loop never
reaches do not enter the flat output either and are `excluded` here. -/
def packStatuses (budget : Nat) : Nat → List FlatEntry → List PackStatus
  | _, [] => []
  | cur, e :: rest =>
    let h := approximate_word_count e.header
    let c := approximate_word_count e.content
    if cur + h + c ≤ budget then
      .included :: packStatuses budget (cur + h + c) rest
    else if cur + h < budget then
      .partialFit :: rest.map (fun _ => .excluded)
    else
      .excluded :: rest.map (fun _ => .excluded)

/-- Packing a ranked list against the word budget (`max_flat_tokens`). -/
def packFlatOutput (budget : Nat) (l : List FlatEntry) : List PackStatus :=
  packStatuses budget 0 l

/-- Words the packed output charges against the budget according to the
spec's round-trip property: header and content words for an included
record, header words only for the truncated record, nothing
otherwise. -/
def chargedWords : List FlatEntry → List PackStatus → Nat
  | e :: es, s :: ss =>
    (match s with
      | .included => approximate_word_count e.header + approximate_word_count e.content
      | .partialFit => approximate_word_count e.header
      | .excluded => 0) + chargedWords es ss
  | _, _ => 0

/-- A raw byte of a file. -/
abbrev Byte := Fin 256

/-- Latin-1 decoding: every byte is the Unicode code point of the same
value, so decoding succeeds on every byte sequence. -/
def latin1Decode (raw : List Byte) : List Char :=
  raw.map (fun b => Char.ofNat b.val)

/-- Strict ASCII decoding: succeeds iff every byte is below 128. -/
def asciiDecode (raw : List Byte) : Option (List Char) :=
  if raw.all (fun b => b.val < 128) then some (raw.map (fun b => Char.ofNat b.val))
  else none

/-- Whether a byte is a UTF-8 continuation byte (`10xxxxxx`). -/
def isCont (b : Byte) : Bool :=
  128 ≤ b.val && b.val < 192

/-- Strict UTF-8 decoding, as Python's `utf-8` codec: rejects overlong
forms, surrogates and code points above U+10FFFF. -/
def utf8Decode : List Byte → Option (List Char)
  | [] => some []
  | b :: rest =>
    if b.val < 128 then
      (utf8Decode rest).map (fun cs => Char.ofNat b.val :: cs)
    else if b.val < 194 then none
    else if b.val < 224 then
      match rest with
      | b1 :: r =>
        if isCont b1 then
          (utf8Decode r).map (fun cs =>
            Char.ofNat ((b.val - 192) * 64 + (b1.val - 128)) :: cs)
        else none
      | [] => none
    else if b.val < 240 then
      match rest with
      | b1 :: b2 :: r =>
        let lo1 : Nat := if b.val = 224 then 160 else 128
        let hi1 : Nat := if b.val = 237 then 160 else 192
        if lo1 ≤ b1.val && b1.val < hi1 && isCont b2 then
          (utf8Decode r).map (fun cs =>
            Char.ofNat ((b.val - 224) * 4096 + (b1.val - 128) * 64 + (b2.val - 128)) :: cs)
        else none
      | _ => none
    else if b.val < 245 then
      match rest with
      | b1 :: b2 :: b3 :: r =>
        let lo1 : Nat := if b.val = 240 then 144 else 128
        let hi1 : Nat := if b.val = 244 then 144 else 192
        if lo1 ≤ b1.val && b1.val < hi1 && isCont b2 && isCont b3 then
          (utf8Decode r).map (fun cs =>
            Char.ofNat ((b.val - 240) * 262144 + (b1.val - 128) * 4096
              + (b2.val - 128) * 64 + (b3.val - 128)) :: cs)
        else none
      | _ => none
    else none
termination_by l => l.length
decreasing_by all_goals simp_arith [*]

/-- Outcome of the decode portion of `read_file_content_robust`. -/
structure ReadResult where
  content : Option String
  status : String
deriving Repr, DecidableEq

/-- The fallback attempts of `read_file_content_robust`, in source
order: UTF-8, Latin-1, ASCII. -/
def fallbackAttempts (raw : List Byte) : List (String × Option (List Char)) :=
  [("UTF-8", utf8Decode raw), ("Latin-1", some (latin1Decode raw)),
   ("ASCII", asciiDecode raw)]

/-- First successful decode attempt of the fallback loop. -/
def firstSuccess : List (String × Option (List Char)) → Option (String × List Char)
  | [] => none
  | (name, r) :: rest =>
    match r with
    | some cs => some (name, cs)
    | none => firstSuccess rest

/-- `read_file_content_robust` (confluence.py:486) after the raw bytes
were read: the size gate, the empty-file gate, the attempt with the
encoding chardet guessed, and the UTF-8 → Latin-1 → ASCII fallback
loop ending in `skipped_decode_error`.  `detected` abstracts chardet
plus the decode with its guess: `some s` when chardet named an encoding
and decoding with it produced `s`, `none` when chardet named none or
that decode raised. -/
def read_file_content_robust (raw : List Byte) (max_file_size : Nat)
    (detected : Option String) : ReadResult :=
  if max_file_size < raw.length then ⟨none, "skipped_size"⟩
  else if raw.length = 0 then ⟨some "", "processed_empty"⟩
  else
    match detected with
    | some s => ⟨some s, "ok_detected_encoding"⟩
    | none =>
      match firstSuccess (fallbackAttempts raw) with
      | some (name, cs) => ⟨some ⟨cs⟩, "ok_fallback_" ++ name⟩
      | none => ⟨none, "skipped_decode_error"⟩

/-- Discovery outcome of the rule engine for a regular file. -/
inductive DiscoveryOutcome where
  | ignoredDirectory
  | noMatchingRule
  | candidate
deriving Repr, DecidableEq

/-- `DEFAULT_IGNORE_DIRS` (confluence.py:96-101), verbatim from the
source — note the mixed-case entries `.DS_Store` and `Thumbs.db`.
The Python value is a set; this list carries the same membership. -/
def DEFAULT_IGNORE_DIRS : List String :=
  [".git", "__pycache__", "node_modules", "venv", ".venv", "target", "build",
   "dist", ".vscode", ".idea", "logs", "temp", "tmp", ".DS_Store", "Thumbs.db",
   "site-packages", "env", "docs_build", "_build", "htmlcov", ".tox",
   ".mypy_cache", ".pytest_cache", ".hypothesis", "*.egg-info", "dist-info",
   "coverage"]

/-- The ignored-directory set as `FileProcessor.__init__` builds it
(confluence.py:939-940): the CLI-supplied names are lowercased and
stripped, blank entries dropped — but `DEFAULT_IGNORE_DIRS` is merged
in verbatim, so the stored set keeps the mixed-case `.DS_Store` and
`Thumbs.db` as they are. -/
def mkIgnoredDirsSet (cli_ignore_dirs_list : List String) : List String :=
  ((cli_ignore_dirs_list.filter fun d => pyStrip d ≠ "").map
    fun d => pyStrip (pyLower d)) ++ DEFAULT_IGNORE_DIRS

/-- The filter state `FileProcessor.__init__` establishes: the explicit
include mode flag, the effective target items, the active extension
exclusions, and the ignored-directory names.  `ignoredDirsSet` holds
the names exactly as the constructor stores them (see
`mkIgnoredDirsSet`): lowercased for CLI-supplied names, verbatim —
mixed case included — for the `DEFAULT_IGNORE_DIRS` entries. -/
structure RuleConfig where
  matchModeIsExplicitInclude : Bool
  targetMatchItems : List String
  activeExtensionExclusions : List String
  ignoredDirsSet : List String
deriving Repr

/-- `_is_file_match_rules_discovery` (confluence.py:943) for a regular
file.  `parts` is `file_path.parts`: every component of the full path,
the file's own name included.  `ext` and `name` are the lowercased
suffix and final component, as the source computes after the directory
check. -/
def isFileMatchRulesDiscovery (cfg : RuleConfig) (parts : List String)
    (ext name : String) : DiscoveryOutcome :=
  if (cfg.ignoredDirsSet.any fun d => (parts.map pyLower).contains d) then
    .ignoredDirectory
  else
    let passes : Bool :=
      if cfg.matchModeIsExplicitInclude then
        cfg.targetMatchItems.contains ext || cfg.targetMatchItems.contains name
      else if cfg.targetMatchItems.isEmpty then
        !cfg.activeExtensionExclusions.contains ext
      else
        cfg.targetMatchItems.contains ext || cfg.targetMatchItems.contains name
    if passes then .candidate else .noMatchingRule

/-- A line is blank when `line.strip()` is empty. -/
def isBlankLine (line : String) : Bool :=
  pyStrip line == ""

/-- Python `str.splitlines()` restricted to the `\n`, `\r\n` and `\r`
line boundaries: a trailing boundary opens no extra empty line.  `acc`
holds the current line, reversed. -/
def pySplitLinesAux : List Char → List Char → List (List Char)
  | [], acc => if acc.isEmpty then [] else [acc.reverse]
  | '\r' :: '\n' :: cs, acc => acc.reverse :: pySplitLinesAux cs []
  | '\n' :: cs, acc => acc.reverse :: pySplitLinesAux cs []
  | '\r' :: cs, acc => acc.reverse :: pySplitLinesAux cs []
  | c :: cs, acc => pySplitLinesAux cs (c :: acc)

def pySplitLines (s : String) : List String :=
  (pySplitLinesAux s.data []).map fun l => ⟨l⟩

/-- Join lines with `"\n"` (the `"\n".join(...)` calls). -/
def joinLines (lines : List String) : String :=
  String.intercalate "\n" lines

/-- The blank-compaction loop of `minify_whitespace_content`: a blank
line is emitted (as an empty line) only when the previous line was not
blank. -/
def compactBlankAux : Bool → List String → List String
  | _, [] => []
  | previousBlank, line :: rest =>
    if isBlankLine line then
      if previousBlank then compactBlankAux true rest
      else "" :: compactBlankAux true rest
    else line :: compactBlankAux false rest

/-- The two while-pop loops removing leading and trailing blank lines. -/
def dropLeadingBlanks (l : List String) : List String :=
  l.dropWhile isBlankLine

def dropTrailingBlanks (l : List String) : List String :=
  (l.reverse.dropWhile isBlankLine).reverse

/-- `minify_whitespace_content` (confluence.py:299): right-strip every
line, compact blank runs, drop boundary blank lines, rejoin. -/
def minify_whitespace_content (text : String) : String :=
  if text == "" then ""
  else
    joinLines (dropTrailingBlanks (dropLeadingBlanks
      (compactBlankAux false ((pySplitLines text).map pyRstrip))))

/-- `re.sub(r"//.*?(\n|$)", "\n", code)`: on the opener the replacement
newline is emitted and the scan switches into skip mode (`true`) until
the end of the line; the line's newline was part of the match, so it is
consumed. -/
def lineSubSlash : Bool → List Char → List Char
  | _, [] => []
  | false, '/' :: '/' :: cs => '\n' :: lineSubSlash true cs
  | true, '\n' :: cs => lineSubSlash false cs
  | true, _ :: cs => lineSubSlash true cs
  | false, c :: cs => c :: lineSubSlash false cs

/-- `re.sub(r"#.*?(\n|$)", "\n", code)`, same shape with the one-byte
opener. -/
def lineSubHash : Bool → List Char → List Char
  | _, [] => []
  | false, '#' :: cs => '\n' :: lineSubHash true cs
  | true, '\n' :: cs => lineSubHash false cs
  | true, _ :: cs => lineSubHash true cs
  | false, c :: cs => c :: lineSubHash false cs

/-- `re.sub(r"/\*.*?\*/", "", code, flags=re.DOTALL)`: on `/*` the scan
buffers the consumed characters (reversed); the lazy match ends at the
first `*/`, discarding the buffer; an unterminated opener is emitted
verbatim at the end of input. -/
def blockSubAux : Option (List Char) → List Char → List Char
  | none, [] => []
  | some buf, [] => buf.reverse
  | none, '/' :: '*' :: cs => blockSubAux (some ['*', '/']) cs
  | some _, '*' :: '/' :: cs => blockSubAux none cs
  | none, c :: cs => c :: blockSubAux none cs
  | some buf, c :: cs => blockSubAux (some (c :: buf)) cs

def blockCommentSub (l : List Char) : List Char :=
  blockSubAux none l

/-- The language families of `strip_generic_comments`
(confluence.py:414-421), verbatim from the source. -/
def cFamilyLanguages : List String :=
  ["JavaScript", "TypeScript", "Java", "C", "C++", "C#", "Go", "Rust",
   "Swift", "Kotlin", "Scala", "PHP", "CSS", "JSX", "TSX"]

def hashFamilyLanguages : List String :=
  ["Python", "Ruby", "Perl", "Shell Script", "Bash Script", "Zsh Script",
   "YAML", "R", "Makefile", "Properties", "INI", "Config", "Dockerfile",
   "Git Ignore", "EditorConfig", "Python Requirements"]

def markupLanguages : List String :=
  ["HTML", "XML", "Maven POM"]

/-- The trailing loop of `strip_generic_comments`: keep every non-blank
line; keep a blank line, normalised to empty, only when it is neither
first nor last and both neighbouring lines of the `lines` list are
non-blank.  `previous` is the original previous line. -/
def cleanupBlankAux : Option String → List String → List String
  | _, [] => []
  | previous, line :: rest =>
    if isBlankLine line then
      let keep : Bool :=
        match previous, rest with
        | some p, next :: _ => !isBlankLine p && !isBlankLine next
        | _, _ => false
      if keep then "" :: cleanupBlankAux (some line) rest
      else cleanupBlankAux (some line) rest
    else line :: cleanupBlankAux (some line) rest

def cleanupBlankLines (lines : List String) : List String :=
  cleanupBlankAux none lines

/-- `strip_generic_comments` (confluence.py:403).  For the markup
languages the source's comment pattern is the empty regex
(`re.sub(r"", "", code, flags=re.DOTALL)`), which removes nothing, so
their regex stage is the identity, like the no-branch fallback; the
blank-line cleanup still runs for every language. -/
def strip_generic_comments (code : String) (language : String) : String :=
  if code == "" then ""
  else
    let afterRegex : String :=
      if cFamilyLanguages.contains language then
        ⟨blockCommentSub (lineSubSlash false code.data)⟩
      else if hashFamilyLanguages.contains language then
        ⟨lineSubHash false code.data⟩
      else
        code
    joinLines (cleanupBlankLines (pySplitLines afterRegex))

/-- `process_content_for_llm` (confluence.py:438).  The
Python-language branch calls `strip_python_comments_and_docstrings`,
whose semantics (the stdlib `tokenize` module) lie outside this
embedding; that function enters the model as the oracle parameter
`pythonStripper`. -/
def process_content_for_llm (pythonStripper : String → String)
    (content : String) (language : String)
    (minify_ws : Bool) (strip_com : Bool) : String :=
  let afterStrip : String :=
    if strip_com then
      if language == "Python" then pythonStripper content
      else strip_generic_comments content language
    else content
  let afterMinify : String :=
    if minify_ws then minify_whitespace_content afterStrip else afterStrip
  pyStrip afterMinify

/-- The ordering the spec claims for the in-context list of a
prompt-carrying run: strictly greater score first, and among equal
scores the smaller relative path first. -/
def sortedByScoreThenPath (l : List CtxRecord) : Prop :=
  l.Pairwise fun a b =>
    b.relevance_score < a.relevance_score ∨
      (a.relevance_score = b.relevance_score ∧
        pathLe a.relative_path b.relative_path = true)

instance (l : List CtxRecord) : Decidable (sortedByScoreThenPath l) := by
  unfold sortedByScoreThenPath
  exact List.instDecidablePairwise l

/-! ## Theorems -/

/-- **C8.** For every raw byte sequence that is non-empty and within the
size limit (the successfully-read case), the decode chain returns
decoded text and the `skipped_decode_error` branch is unreachable,
whatever chardet reported: the Latin-1 fallback succeeds on every byte
sequence. -/
theorem decode_chain_never_fails (raw : List Byte) (max_file_size : Nat)
    (detected : Option String)
    (hsize : raw.length ≤ max_file_size) (hne : raw ≠ []) :
    (read_file_content_robust raw max_file_size detected).status ≠ "skipped_decode_error"
      ∧ (read_file_content_robust raw max_file_size detected).content ≠ none := by
  unfold read_file_content_robust
  rw [if_neg (by omega), if_neg (by simpa using hne)]
  cases detected with
  | some s => exact ⟨by simp, by simp⟩
  | none =>
    unfold fallbackAttempts firstSuccess
    cases h : utf8Decode raw with
    | some cs => exact ⟨by simp, by simp⟩
    | none => exact ⟨by simp [firstSuccess], by simp [firstSuccess]⟩

/-- Witness for C8 at the byte sequence `[255]` (invalid UTF-8, decoded
by the Latin-1 fallback). -/
theorem decode_chain_never_fails_witness :
    ([(255 : Byte)].length ≤ 5 ∧ [(255 : Byte)] ≠ []) ∧
      ((read_file_content_robust [(255 : Byte)] 5 none).status ≠ "skipped_decode_error"
        ∧ (read_file_content_robust [(255 : Byte)] 5 none).content ≠ none) :=
  ⟨⟨by decide, by decide⟩,
    decode_chain_never_fails [(255 : Byte)] 5 none (by decide) (by decide)⟩

/-- **C9 (amended).** If any component of the file's path (its own name
included) equals, after lowercasing, a name as stored in the
ignored-directory set, the rule engine classifies the file
`ignored_directory` and it never becomes a candidate.  Since CLI names
are stored lowercased, they match case-insensitively; the mixed-case
`DEFAULT_IGNORE_DIRS` entries `.DS_Store` and `Thumbs.db` can never
equal a lowercased component, so they never reject anything (see the
counterexample below). -/
theorem ignored_dir_component_rejects (cfg : RuleConfig) (parts : List String)
    (ext name : String)
    (h : ∃ p ∈ parts, pyLower p ∈ cfg.ignoredDirsSet) :
    isFileMatchRulesDiscovery cfg parts ext name = .ignoredDirectory
      ∧ isFileMatchRulesDiscovery cfg parts ext name ≠ .candidate := by
  obtain ⟨p, hp, hd⟩ := h
  have hany : (cfg.ignoredDirsSet.any fun d => (parts.map pyLower).contains d) = true := by
    rw [List.any_eq_true]
    exact ⟨pyLower p, hd, by
      simpa using List.mem_map_of_mem pyLower hp⟩
  unfold isFileMatchRulesDiscovery
  rw [if_pos hany]
  exact ⟨rfl, by simp⟩

/-- Witness for C9: a regular file named `Build` (matching the ignored
directory name case-insensitively) is rejected. -/
theorem ignored_dir_component_rejects_witness :
    (∃ p ∈ ["/", "repo", "Build"], pyLower p ∈ ["build", "node_modules"]) ∧
      (isFileMatchRulesDiscovery ⟨false, [], [], ["build", "node_modules"]⟩
          ["/", "repo", "Build"] "" "build" = .ignoredDirectory
        ∧ isFileMatchRulesDiscovery ⟨false, [], [], ["build", "node_modules"]⟩
          ["/", "repo", "Build"] "" "build" ≠ .candidate) :=
  ⟨by decide,
    ignored_dir_component_rejects ⟨false, [], [], ["build", "node_modules"]⟩
      ["/", "repo", "Build"] "" "build" (by decide)⟩

/-- Counterexample to **C9** as stated: `.DS_Store` is a configured
ignored-directory name (stored verbatim by the constructor, no CLI
names given), and the file's own name equals it in identical case —
hence certainly case-insensitively — yet the rule engine does not
reject the file: in the match-anything mode it becomes a candidate,
because the test at confluence.py:960-961 lowercases the path parts
while the stored default name keeps its uppercase letters. -/
theorem ignored_dir_default_case_counterexample :
    ".DS_Store" ∈ mkIgnoredDirsSet []
    ∧ (∃ p ∈ ["/", "repo", ".DS_Store"],
        ∃ d ∈ mkIgnoredDirsSet [], pyLower p = pyLower d)
    ∧ isFileMatchRulesDiscovery ⟨false, [], [], mkIgnoredDirsSet []⟩
        ["/", "repo", ".DS_Store"] "" ".ds_store" = .candidate
    ∧ isFileMatchRulesDiscovery ⟨false, [], [], mkIgnoredDirsSet []⟩
        ["/", "repo", ".DS_Store"] "" ".ds_store" ≠ .ignoredDirectory := by
  refine ⟨by decide, ⟨".DS_Store", by decide, ".DS_Store", by decide, rfl⟩,
    by decide, by decide⟩

/-- Records past the break point charge nothing against the budget. -/
theorem chargedWords_all_excluded (es : List FlatEntry) :
    chargedWords es (es.map fun _ => PackStatus.excluded) = 0 := by
  induction es with
  | nil => rfl
  | cons e es ih => simpa [chargedWords] using ih

/-- Budget invariant of the packing loop: if the running word count is
within the budget, the words still to be charged keep it within the
budget. -/
theorem packStatuses_charged_le (budget : Nat) :
    ∀ (l : List FlatEntry) (cur : Nat), cur ≤ budget →
      cur + chargedWords l (packStatuses budget cur l) ≤ budget := by
  intro l
  induction l with
  | nil => intro cur h; simpa [packStatuses, chargedWords] using h
  | cons e rest ih =>
    intro cur hcur
    by_cases h1 : cur + approximate_word_count e.header
        + approximate_word_count e.content ≤ budget
    · have hrec := ih (cur + approximate_word_count e.header
        + approximate_word_count e.content) h1
      simp only [packStatuses, if_pos h1, chargedWords]
      omega
    · by_cases h2 : cur + approximate_word_count e.header < budget
      · simp only [packStatuses, if_neg h1, if_pos h2, chargedWords,
          chargedWords_all_excluded]
        omega
      · simp only [packStatuses, if_neg h1, if_neg h2, chargedWords,
          chargedWords_all_excluded]
        omega

/-- **C5.** For every ranked input sequence and word budget, the packed
output charges at most the budget: content words of fully included
records plus header words of included and truncated records never
exceed `max_flat_tokens`. -/
theorem packer_budget_bound (budget : Nat) (l : List FlatEntry) :
    chargedWords l (packFlatOutput budget l) ≤ budget := by
  have h := packStatuses_charged_le budget l 0 (Nat.zero_le _)
  simpa [packFlatOutput] using h

/-- The status list the packing loop produces is a run of `included`
optionally followed by one `partialFit` or one `excluded` and then only
`excluded`. -/
theorem packStatuses_shape (budget : Nat) :
    ∀ (l : List FlatEntry) (cur : Nat),
      (∃ k, packStatuses budget cur l = List.replicate k PackStatus.included) ∨
      (∃ k m, packStatuses budget cur l
          = List.replicate k PackStatus.included
            ++ PackStatus.partialFit :: List.replicate m PackStatus.excluded) ∨
      (∃ k m, packStatuses budget cur l
          = List.replicate k PackStatus.included
            ++ PackStatus.excluded :: List.replicate m PackStatus.excluded) := by
  intro l
  induction l with
  | nil => intro cur; exact Or.inl ⟨0, rfl⟩
  | cons e rest ih =>
    intro cur
    by_cases h1 : cur + approximate_word_count e.header
        + approximate_word_count e.content ≤ budget
    · rcases ih (cur + approximate_word_count e.header
          + approximate_word_count e.content) with ⟨k, hk⟩ | ⟨k, m, hk⟩ | ⟨k, m, hk⟩
      · exact Or.inl ⟨k + 1, by
          simp [packStatuses, if_pos h1, hk, List.replicate_succ]⟩
      · exact Or.inr (Or.inl ⟨k + 1, m, by
          simp [packStatuses, if_pos h1, hk, List.replicate_succ]⟩)
      · exact Or.inr (Or.inr ⟨k + 1, m, by
          simp [packStatuses, if_pos h1, hk, List.replicate_succ]⟩)
    · by_cases h2 : cur + approximate_word_count e.header < budget
      · refine Or.inr (Or.inl ⟨0, rest.length, ?_⟩)
        simp [packStatuses, if_neg h1, if_pos h2, List.map_const']
      · refine Or.inr (Or.inr ⟨0, rest.length, ?_⟩)
        simp [packStatuses, if_neg h1, if_neg h2, List.map_const']

/-- **C6.** The packer marks at most one record `partialFit`; every
record after a non-included record is excluded from the flat output;
and a record whose header alone does not fit the remaining budget stops
the loop with that record and all subsequent records out. -/
theorem packer_break_semantics (budget : Nat) (l : List FlatEntry) :
    ((packFlatOutput budget l).count PackStatus.partialFit ≤ 1)
    ∧ (packFlatOutput budget l).Pairwise
        (fun a b => a ≠ PackStatus.included → b = PackStatus.excluded)
    ∧ (∀ cur e rest,
        ¬ (cur + approximate_word_count e.header
            + approximate_word_count e.content ≤ budget) →
        ¬ (cur + approximate_word_count e.header < budget) →
        packStatuses budget cur (e :: rest)
          = PackStatus.excluded :: rest.map fun _ => PackStatus.excluded) := by
  refine ⟨?_, ?_, ?_⟩
  · rcases packStatuses_shape budget l 0 with ⟨k, hk⟩ | ⟨k, m, hk⟩ | ⟨k, m, hk⟩ <;>
      simp [packFlatOutput, hk, List.count_append, List.count_replicate, List.count_cons]
  · have hrepl : ∀ n : Nat, (List.replicate n PackStatus.included).Pairwise
        (fun a b => a ≠ PackStatus.included → b = PackStatus.excluded) := by
      intro n
      rw [List.pairwise_replicate]
      exact Or.inr (fun h => absurd rfl h)
    have htail : ∀ (c : PackStatus) (m : Nat),
        (c :: List.replicate m PackStatus.excluded).Pairwise
          (fun a b => a ≠ PackStatus.included → b = PackStatus.excluded) := by
      intro c m
      rw [List.pairwise_cons]
      refine ⟨fun b hb _ => List.eq_of_mem_replicate hb, ?_⟩
      rw [List.pairwise_replicate]
      exact Or.inr (fun _ => rfl)
    rcases packStatuses_shape budget l 0 with ⟨k, hk⟩ | ⟨k, m, hk⟩ | ⟨k, m, hk⟩
    · rw [packFlatOutput, hk]; exact hrepl k
    · rw [packFlatOutput, hk]
      refine List.pairwise_append.2 ⟨hrepl k, htail _ m, ?_⟩
      intro a ha b _
      intro hne
      exact absurd (List.eq_of_mem_replicate ha) hne
    · rw [packFlatOutput, hk]
      refine List.pairwise_append.2 ⟨hrepl k, htail _ m, ?_⟩
      intro a ha b _
      intro hne
      exact absurd (List.eq_of_mem_replicate ha) hne
  · intro cur e rest h1 h2
    simp [packStatuses, if_neg h1, if_neg h2]

/-- Core arithmetic of the score combination: capping at 1 after the
`> 0.001` gate equals the spec's guarded formula. -/
theorem combined_core (p k β : ℚ) :
    min (if 1 / 1000 < p ∨ 1 / 1000 < k then (p + k * β) / (1 + β) else 0) 1
      = if p ≤ 1 / 1000 ∧ k ≤ 1 / 1000 then 0
        else min ((p + k * β) / (1 + β)) 1 := by
  by_cases h : (1 : ℚ) / 1000 < p ∨ 1 / 1000 < k
  · rw [if_pos h, if_neg]
    intro hand
    rcases h with h | h
    · exact absurd hand.1 (not_le.mpr h)
    · exact absurd hand.2 (not_le.mpr h)
  · push_neg at h
    rw [if_neg (by push_neg; exact h), if_pos h]
    norm_num

/-- **C1.** With a query model present and β ≥ 0, the combined score is
0 when both the similarity score and the keyword score are at most
0.001, and otherwise min((similarity + keyword·β)/(1+β), 1). -/
theorem combined_score_formula (content : String) (sp : Option String)
    (kws : List String) (simLabel : String) (simOf : String → ℚ) (β : ℚ)
    (r : RelevanceResult)
    (hprompt : promptTruthy sp = true) (hβ : 0 ≤ β)
    (hr : calculate_relevance_scores_for_content content sp kws simLabel simOf β = r) :
    r.combined = if r.similarity ≤ 1 / 1000 ∧ r.keyword ≤ 1 / 1000 then 0
      else min ((r.similarity + r.keyword * β) / (1 + β)) 1 := by
  subst hr
  unfold calculate_relevance_scores_for_content
  by_cases hc : content = ""
  · simp only [hc, beq_self_eq_true, if_true]
    norm_num
  · simp only [beq_iff_eq, hc, if_false, hprompt, if_true]
    exact combined_core _ _ β

/-- Witness for C1 at a concrete scored document. -/
theorem combined_score_formula_witness :
    (promptTruthy (some "query") = true ∧ (0 : ℚ) ≤ 3 / 2) ∧
      ((calculate_relevance_scores_for_content "hello world" (some "query")
          ["hello"] "tfidf" (fun _ => 1 / 2) (3 / 2)).combined
        = if (calculate_relevance_scores_for_content "hello world" (some "query")
              ["hello"] "tfidf" (fun _ => 1 / 2) (3 / 2)).similarity ≤ 1 / 1000
            ∧ (calculate_relevance_scores_for_content "hello world" (some "query")
              ["hello"] "tfidf" (fun _ => 1 / 2) (3 / 2)).keyword ≤ 1 / 1000
          then 0
          else min (((calculate_relevance_scores_for_content "hello world" (some "query")
              ["hello"] "tfidf" (fun _ => 1 / 2) (3 / 2)).similarity
            + (calculate_relevance_scores_for_content "hello world" (some "query")
              ["hello"] "tfidf" (fun _ => 1 / 2) (3 / 2)).keyword * (3 / 2)) / (1 + 3 / 2)) 1) :=
  ⟨⟨by decide, by norm_num⟩,
    combined_score_formula "hello world" (some "query") ["hello"] "tfidf"
      (fun _ => 1 / 2) (3 / 2) _ (by decide) (by norm_num) rfl⟩

/-- For a non-negative numerator the cap at 1 vanishes exactly when the
uncapped value does. -/
theorem min_one_eq_zero_iff (c : ℚ) : min c 1 = 0 ↔ c = 0 := by
  by_cases h : c ≤ 1
  · rw [min_eq_left h]
  · push_neg at h
    rw [min_eq_right h.le]
    constructor
    · intro h1; exact absurd h1 one_ne_zero
    · intro h0; rw [h0] at h; exact absurd h (by norm_num)

/-- Counterexample to **C3** as stated: a scored document whose
similarity score is 0.01 (above the 0.001 gate, below the 0.02 label
threshold) with keyword score 0 satisfies neither `has_sim` nor
`has_kw`, yet its match type is `low_scores_no_dominant_match_type`,
not `no_discernible_match`. -/
theorem match_type_neither_counterexample :
    ¬ ((2 : ℚ) / 100 ≤ (calculate_relevance_scores_for_content "x" (some "q") []
        "tfidf" (fun _ => 1 / 100) 1).similarity)
    ∧ ¬ ((5 : ℚ) / 100 ≤ (calculate_relevance_scores_for_content "x" (some "q") []
        "tfidf" (fun _ => 1 / 100) 1).keyword)
    ∧ (calculate_relevance_scores_for_content "x" (some "q") []
        "tfidf" (fun _ => 1 / 100) 1).matchType ≠ "no_discernible_match" := by
  have hx : ¬ (("x" : String) = "") := by decide
  have hq : ¬ (("q" : String) = "") := by decide
  have hne : ("low_scores_no_dominant_match_type" : String) ≠ "no_discernible_match" := by
    decide
  refine ⟨?_, ?_, ?_⟩ <;>
    norm_num [calculate_relevance_scores_for_content, promptTruthy, beq_iff_eq,
      hx, hq, hne]

/-- **C3 (amended).** For a scored, non-empty document the match type
is: method-label `_and_keyword` when both thresholds hold, else
`keyword_dominant` when only the keyword threshold holds, else
method-label `_dominant` when only the similarity threshold holds, else
`no_discernible_match` when the combined score is 0 and
`low_scores_no_dominant_match_type` otherwise; empty documents yield
`no_content_to_score`. -/
theorem match_type_classification (content : String) (sp : Option String)
    (kws : List String) (simLabel : String) (simOf : String → ℚ) (β : ℚ)
    (r : RelevanceResult)
    (hprompt : promptTruthy sp = true) (hcontent : content ≠ "")
    (hr : calculate_relevance_scores_for_content content sp kws simLabel simOf β = r) :
    r.matchType =
      if 2 / 100 ≤ r.similarity ∧ 5 / 100 ≤ r.keyword then simLabel ++ "_and_keyword"
      else if 5 / 100 ≤ r.keyword then "keyword_dominant"
      else if 2 / 100 ≤ r.similarity then simLabel ++ "_dominant"
      else if r.combined = 0 then "no_discernible_match"
      else "low_scores_no_dominant_match_type" := by
  subst hr
  unfold calculate_relevance_scores_for_content
  simp only [beq_iff_eq, hcontent, if_false, hprompt, Bool.true_and,
    eq_self_iff_true, if_true]
  generalize (if (!kws.isEmpty) = true
      then calculate_keyword_score content kws else 0) = K
  generalize simOf content = P
  simp only [min_one_eq_zero_iff]

/-- Witness for the amended C3 at a concrete both-dominant document. -/
theorem match_type_classification_witness :
    (promptTruthy (some "q") = true ∧ ("a b" : String) ≠ "") ∧
      (calculate_relevance_scores_for_content "a b" (some "q") ["a"] "tfidf"
          (fun _ => 1 / 2) 1).matchType =
        (if 2 / 100 ≤ (calculate_relevance_scores_for_content "a b" (some "q") ["a"]
              "tfidf" (fun _ => 1 / 2) 1).similarity
            ∧ 5 / 100 ≤ (calculate_relevance_scores_for_content "a b" (some "q") ["a"]
              "tfidf" (fun _ => 1 / 2) 1).keyword
          then "tfidf" ++ "_and_keyword"
          else if 5 / 100 ≤ (calculate_relevance_scores_for_content "a b" (some "q") ["a"]
              "tfidf" (fun _ => 1 / 2) 1).keyword then "keyword_dominant"
          else if 2 / 100 ≤ (calculate_relevance_scores_for_content "a b" (some "q") ["a"]
              "tfidf" (fun _ => 1 / 2) 1).similarity then "tfidf" ++ "_dominant"
          else if (calculate_relevance_scores_for_content "a b" (some "q") ["a"]
              "tfidf" (fun _ => 1 / 2) 1).combined = 0 then "no_discernible_match"
          else "low_scores_no_dominant_match_type") :=
  ⟨⟨by decide, by decide⟩,
    match_type_classification "a b" (some "q") ["a"] "tfidf" (fun _ => 1 / 2) 1 _
      (by decide) (by decide) rfl⟩

/-- Transitivity of the lexicographic character-list order. -/
theorem charListLt_trans :
    ∀ a b c : List Char, charListLt a b = true → charListLt b c = true →
      charListLt a c = true := by
  intro a
  induction a with
  | nil =>
    intro b c hab hbc
    cases b with
    | nil => exact absurd hab (by simp [charListLt])
    | cons y bs =>
      cases c with
      | nil => exact absurd hbc (by simp [charListLt])
      | cons z cs => simp [charListLt]
  | cons x as ih =>
    intro b c hab hbc
    cases b with
    | nil => exact absurd hab (by simp [charListLt])
    | cons y bs =>
      cases c with
      | nil => exact absurd hbc (by simp [charListLt])
      | cons z cs =>
        simp only [charListLt] at hab hbc ⊢
        by_cases hxy : x < y
        · by_cases hyz : y < z
          · rw [if_pos (hxy.trans hyz)]
          · by_cases hzy : z < y
            · rw [if_neg hyz, if_pos hzy] at hbc
              exact absurd hbc (by simp)
            · have hyzeq : y = z := le_antisymm (not_lt.mp hzy) (not_lt.mp hyz)
              rw [if_pos (hyzeq ▸ hxy)]
        · by_cases hyx : y < x
          · rw [if_neg hxy, if_pos hyx] at hab
            exact absurd hab (by simp)
          · have hxyeq : x = y := le_antisymm (not_lt.mp hyx) (not_lt.mp hxy)
            rw [if_neg hxy, if_neg hyx] at hab
            by_cases hyz : y < z
            · rw [if_pos (hxyeq ▸ hyz)]
            · by_cases hzy : z < y
              · rw [if_neg hyz, if_pos hzy] at hbc
                exact absurd hbc (by simp)
              · have hyzeq : y = z := le_antisymm (not_lt.mp hzy) (not_lt.mp hyz)
                rw [if_neg hyz, if_neg hzy] at hbc
                have hxz : ¬ x < z := by rw [hxyeq, hyzeq]; exact lt_irrefl z
                have hzx : ¬ z < x := by rw [hxyeq, hyzeq]; exact lt_irrefl z
                rw [if_neg hxz, if_neg hzx]
                exact ih bs cs hab hbc

/-- Two character lists neither of which lexicographically precedes the
other are equal. -/
theorem charListLt_connex :
    ∀ a b : List Char, charListLt a b = false → charListLt b a = false →
      a = b := by
  intro a
  induction a with
  | nil =>
    intro b hab _
    cases b with
    | nil => rfl
    | cons y bs => exact absurd hab (by simp [charListLt])
  | cons x as ih =>
    intro b hab hba
    cases b with
    | nil => exact absurd hba (by simp [charListLt])
    | cons y bs =>
      simp only [charListLt] at hab hba
      by_cases hxy : x < y
      · rw [if_pos hxy] at hab
        exact absurd hab (by simp)
      · by_cases hyx : y < x
        · rw [if_pos hyx] at hba
          exact absurd hba (by simp)
        · have hxyeq : x = y := le_antisymm (not_lt.mp hyx) (not_lt.mp hxy)
          rw [if_neg hxy, if_neg hyx] at hab
          rw [if_neg hyx, if_neg hxy] at hba
          rw [hxyeq, ih bs hab hba]

/-- If `y < x` fails (Python string order) then `x ≤ y` holds. -/
theorem pathLe_of_not_pathLt (x y : String) (h : pathLt y x = false) :
    pathLe x y = true := by
  by_cases hxy : pathLt x y = true
  · simp [pathLe, hxy]
  · have hdata : x.data = y.data :=
      charListLt_connex x.data y.data (by simpa [pathLt] using hxy) h
    have hxyeq : x = y := by
      cases x; cases y; simp_all
    simp [pathLe, hxyeq]

theorem pathLe_trans (a b c : String) (hab : pathLe a b = true)
    (hbc : pathLe b c = true) : pathLe a c = true := by
  rcases Bool.or_eq_true_iff.mp hab with h1 | h1
  · rcases Bool.or_eq_true_iff.mp hbc with h2 | h2
    · have := charListLt_trans a.data b.data c.data h1 h2
      simp [pathLe, pathLt, this]
    · have hbceq : b = c := by simpa using h2
      subst hbceq
      simp only [pathLe, Bool.or_eq_true]
      exact Or.inl h1
  · have habeq : a = b := by simpa using h1
    subst habeq
    exact hbc

/-- Stable insertion is a permutation with the inserted head. -/
theorem insertByScoreDesc_perm (x : CtxRecord) (l : List CtxRecord) :
    List.Perm (insertByScoreDesc x l) (x :: l) := by
  induction l with
  | nil => exact List.Perm.refl _
  | cons y ys ih =>
    unfold insertByScoreDesc
    by_cases h : x.relevance_score < y.relevance_score
    · rw [if_pos h]
      exact (ih.cons y).trans (List.Perm.swap x y ys)
    · rw [if_neg h]

theorem sortByScoreDesc_perm (l : List CtxRecord) :
    List.Perm (sortByScoreDesc l) l := by
  induction l with
  | nil => exact List.Perm.refl _
  | cons x xs ih =>
    exact (insertByScoreDesc_perm x (sortByScoreDesc xs)).trans (ih.cons x)

/-- Inserting into a score-descending list keeps it score-descending. -/
theorem insertByScoreDesc_sorted (x : CtxRecord) (l : List CtxRecord)
    (h : l.Pairwise fun a b => b.relevance_score ≤ a.relevance_score) :
    (insertByScoreDesc x l).Pairwise
      fun a b => b.relevance_score ≤ a.relevance_score := by
  induction l with
  | nil => simp [insertByScoreDesc]
  | cons y ys ih =>
    rw [List.pairwise_cons] at h
    obtain ⟨hy, hys⟩ := h
    unfold insertByScoreDesc
    by_cases hcmp : x.relevance_score < y.relevance_score
    · rw [if_pos hcmp, List.pairwise_cons]
      refine ⟨?_, ih hys⟩
      intro b hb
      rcases List.mem_cons.1 ((insertByScoreDesc_perm x ys).mem_iff.1 hb) with hbx | hb2
      · rw [hbx]; exact hcmp.le
      · exact hy b hb2
    · rw [if_neg hcmp, List.pairwise_cons]
      push_neg at hcmp
      refine ⟨?_, List.pairwise_cons.2 ⟨hy, hys⟩⟩
      intro b hb
      rcases List.mem_cons.1 hb with hby | hb2
      · rw [hby]; exact hcmp
      · exact (hy b hb2).trans hcmp

theorem sortByScoreDesc_sorted (l : List CtxRecord) :
    (sortByScoreDesc l).Pairwise
      fun a b => b.relevance_score ≤ a.relevance_score := by
  induction l with
  | nil => simp [sortByScoreDesc]
  | cons x xs ih => exact insertByScoreDesc_sorted x (sortByScoreDesc xs) ih

/-- Stability of the insertion: the score class of the inserted record
gains it at the front, other score classes are untouched. -/
theorem filter_insertByScoreDesc (x : CtxRecord) (l : List CtxRecord) (q : ℚ) :
    (insertByScoreDesc x l).filter (fun r => r.relevance_score == q)
      = if x.relevance_score = q
        then x :: l.filter (fun r => r.relevance_score == q)
        else l.filter (fun r => r.relevance_score == q) := by
  induction l with
  | nil =>
    by_cases h : x.relevance_score = q <;>
      simp [insertByScoreDesc, List.filter_cons, h]
  | cons y ys ih =>
    unfold insertByScoreDesc
    by_cases hcmp : x.relevance_score < y.relevance_score
    · rw [if_pos hcmp]
      by_cases hx : x.relevance_score = q
      · have hy : ¬ (y.relevance_score = q) := by
          intro hyq
          rw [← hx] at hyq
          exact absurd hyq.symm (ne_of_lt hcmp)
        simp [List.filter_cons, hy, hx, ih]
      · simp [List.filter_cons, hx, ih]
    · rw [if_neg hcmp]
      by_cases hx : x.relevance_score = q <;>
        simp [List.filter_cons, hx]

/-- The score-descending sort is stable: each score class keeps its
input order. -/
theorem sortByScoreDesc_stable (l : List CtxRecord) (q : ℚ) :
    (sortByScoreDesc l).filter (fun r => r.relevance_score == q)
      = l.filter (fun r => r.relevance_score == q) := by
  induction l with
  | nil => rfl
  | cons x xs ih =>
    show (insertByScoreDesc x (sortByScoreDesc xs)).filter _ = _
    rw [filter_insertByScoreDesc]
    by_cases hx : x.relevance_score = q <;>
      simp [List.filter_cons, hx, ih]

theorem insertByPathAsc_perm (x : CtxRecord) (l : List CtxRecord) :
    List.Perm (insertByPathAsc x l) (x :: l) := by
  induction l with
  | nil => exact List.Perm.refl _
  | cons y ys ih =>
    unfold insertByPathAsc
    by_cases h : pathLt y.relative_path x.relative_path = true
    · rw [if_pos h]
      exact (ih.cons y).trans (List.Perm.swap x y ys)
    · rw [if_neg h]

theorem sortByPathAsc_perm (l : List CtxRecord) :
    List.Perm (sortByPathAsc l) l := by
  induction l with
  | nil => exact List.Perm.refl _
  | cons x xs ih =>
    exact (insertByPathAsc_perm x (sortByPathAsc xs)).trans (ih.cons x)

theorem insertByPathAsc_sorted (x : CtxRecord) (l : List CtxRecord)
    (h : l.Pairwise fun a b => pathLe a.relative_path b.relative_path = true) :
    (insertByPathAsc x l).Pairwise
      fun a b => pathLe a.relative_path b.relative_path = true := by
  induction l with
  | nil => simp [insertByPathAsc]
  | cons y ys ih =>
    rw [List.pairwise_cons] at h
    obtain ⟨hy, hys⟩ := h
    unfold insertByPathAsc
    by_cases hcmp : pathLt y.relative_path x.relative_path = true
    · rw [if_pos hcmp, List.pairwise_cons]
      refine ⟨?_, ih hys⟩
      intro b hb
      rcases List.mem_cons.1 ((insertByPathAsc_perm x ys).mem_iff.1 hb) with hbx | hb2
      · rw [hbx]
        simp [pathLe, hcmp]
      · exact hy b hb2
    · rw [if_neg hcmp, List.pairwise_cons]
      have hxy : pathLe x.relative_path y.relative_path = true :=
        pathLe_of_not_pathLt _ _ (Bool.not_eq_true _ ▸ hcmp)
      refine ⟨?_, List.pairwise_cons.2 ⟨hy, hys⟩⟩
      intro b hb
      rcases List.mem_cons.1 hb with hby | hb2
      · rw [hby]; exact hxy
      · exact pathLe_trans _ _ _ hxy (hy b hb2)

theorem sortByPathAsc_sorted (l : List CtxRecord) :
    (sortByPathAsc l).Pairwise
      fun a b => pathLe a.relative_path b.relative_path = true := by
  induction l with
  | nil => simp [sortByPathAsc]
  | cons x xs ih => exact insertByPathAsc_sorted x (sortByPathAsc xs) ih

/-- Counterexample to **C4** as stated: two records with equal score
collected in the order `b`, `a` stay in that order after the
prompt-run sort, although `a` has the smaller relative path — the sort
key is the relevance score alone, so path order does not break ties. -/
theorem aggregator_tie_break_counterexample :
    aggregatorSort true [⟨"b", 1⟩, ⟨"a", 1⟩] = [⟨"b", 1⟩, ⟨"a", 1⟩]
      ∧ ¬ sortedByScoreThenPath (aggregatorSort true [⟨"b", 1⟩, ⟨"a", 1⟩]) := by
  constructor
  · show sortByScoreDesc _ = _
    norm_num [sortByScoreDesc, insertByScoreDesc]
  · intro hsorted
    have heq : aggregatorSort true [⟨"b", 1⟩, ⟨"a", 1⟩] = [⟨"b", 1⟩, ⟨"a", 1⟩] := by
      show sortByScoreDesc _ = _
      norm_num [sortByScoreDesc, insertByScoreDesc]
    rw [heq] at hsorted
    unfold sortedByScoreThenPath at hsorted
    rw [List.pairwise_cons] at hsorted
    have h := hsorted.1 ⟨"a", 1⟩ (by simp)
    rcases h with h | ⟨-, h⟩
    · exact absurd h (by norm_num)
    · have : pathLe "b" "a" = false := by decide
      rw [this] at h
      exact absurd h (by simp)

/-- **C4 (amended).** With a query model the in-context sort orders by
relevance score descending and is a permutation of its input in which
records of equal score keep their input (collection) order — the
relative path is not consulted for ties; without a query model the sort
orders by relative path ascending. -/
theorem aggregator_sort_order (l : List CtxRecord) :
    ((aggregatorSort true l).Pairwise
        (fun a b => b.relevance_score ≤ a.relevance_score)
      ∧ List.Perm (aggregatorSort true l) l
      ∧ ∀ q : ℚ, (aggregatorSort true l).filter (fun r => r.relevance_score == q)
          = l.filter (fun r => r.relevance_score == q))
    ∧ ((aggregatorSort false l).Pairwise
        (fun a b => pathLe a.relative_path b.relative_path = true)
      ∧ List.Perm (aggregatorSort false l) l) := by
  refine ⟨⟨?_, ?_, ?_⟩, ?_, ?_⟩
  · exact sortByScoreDesc_sorted l
  · exact sortByScoreDesc_perm l
  · exact fun q => sortByScoreDesc_stable l q
  · exact sortByPathAsc_sorted l
  · exact sortByPathAsc_perm l
/-- `Char.ofNat` at a scalar value below the surrogate range. -/
theorem char_toNat_ofNat_valid (n : Nat) (h : n < 55296) :
    (Char.ofNat n).toNat = n := by
  rw [Char.ofNat, dif_pos (Or.inl h)]
  rfl

theorem char_eq_of_toNat_eq {c d : Char} (h : c.toNat = d.toNat) : c = d := by
  have hc := Char.ofNat_toNat c
  rw [h, Char.ofNat_toNat] at hc
  exact hc.symm

/-- Character equality testing factors through the code point. -/
theorem char_beq_toNat (c d : Char) : (c == d) = (c.toNat == d.toNat) := by
  by_cases h : c = d
  · subst h
    simp
  · have h2 : c.toNat ≠ d.toNat := fun he => h (char_eq_of_toNat_eq he)
    rw [beq_eq_false_iff_ne.mpr h, (beq_eq_false_iff_ne (a := c.toNat)).mpr h2]

/-- Python whitespace membership in terms of the code point. -/
theorem pyIsSpace_toNat (c : Char) :
    pyIsSpace c
      = ((c.toNat == 32) || (c.toNat == 9) || (c.toNat == 10)
        || (c.toNat == 13) || (c.toNat == 11) || (c.toNat == 12)) := by
  have h32 : (' ').toNat = 32 := rfl
  have h9 : ('\t').toNat = 9 := rfl
  have h10 : ('\n').toNat = 10 := rfl
  have h13 : ('\r').toNat = 13 := rfl
  unfold pyIsSpace
  rw [char_beq_toNat c ' ', char_beq_toNat c '\t', char_beq_toNat c '\n',
    char_beq_toNat c '\r', h32, h9, h10, h13]

/-- Lowercasing never changes whitespace-ness (`str.lower` moves only
the range A-Z, which is disjoint from the whitespace set). -/
theorem pyIsSpace_toLower (c : Char) :
    pyIsSpace c.toLower = pyIsSpace c := by
  unfold Char.toLower
  by_cases h : c.toNat ≥ 65 ∧ c.toNat ≤ 90
  · rw [if_pos h]
    obtain ⟨h1, h2⟩ := h
    have hv : (Char.ofNat (c.toNat + 32)).toNat = c.toNat + 32 :=
      char_toNat_ofNat_valid _ (by omega)
    rw [pyIsSpace_toNat, pyIsSpace_toNat, hv]
    have hfalse : ∀ m : Nat, 33 ≤ m →
        ((m == 32) || (m == 9) || (m == 10) || (m == 13)
          || (m == 11) || (m == 12)) = false := by
      intro m hm
      simp only [Bool.or_eq_false_iff, beq_eq_false_iff_ne, ne_eq]
      omega
    rw [hfalse _ (by omega), hfalse _ (by omega)]
  · rw [if_neg h]

/-- The word boundaries of `str.split()` are untouched by `str.lower`. -/
theorem splitWordsAux_toLower_length :
    ∀ (l acc : List Char),
      (splitWordsAux (l.map Char.toLower) (acc.map Char.toLower)).length
        = (splitWordsAux l acc).length := by
  intro l
  induction l with
  | nil =>
    intro acc
    cases acc <;> simp [splitWordsAux]
  | cons c cs ih =>
    intro acc
    simp only [List.map_cons, splitWordsAux, pyIsSpace_toLower]
    by_cases hsp : pyIsSpace c
    · rw [if_pos hsp, if_pos hsp]
      cases acc with
      | nil =>
        have := ih []
        simpa using this
      | cons a as =>
        have hmap := ih []
        simp only [List.map_nil] at hmap
        simp [hmap]
    · rw [if_neg hsp, if_neg hsp, ← List.map_cons]
      exact ih (c :: acc)

/-- Word counts are insensitive to lowercasing. -/
theorem approximate_word_count_pyLower (s : String) :
    approximate_word_count (pyLower s) = approximate_word_count s := by
  unfold approximate_word_count pySplit pyLower
  simpa using splitWordsAux_toLower_length s.data []

/-- The keyword loop accumulates the count of matched keywords and the
total match frequency. -/
theorem keywordFold_spec (cl : String) (keywords : List String) :
    keywordFold cl keywords
      = ((keywords.filter fun kw => 0 < keywordMatchCount cl kw).length,
         (keywords.map fun kw => keywordMatchCount cl kw).sum) := by
  have key : ∀ (l : List String) (p : Nat × Nat),
      l.foldl (fun p kw =>
          if 0 < keywordMatchCount cl kw then (p.1 + 1, p.2 + keywordMatchCount cl kw)
          else p) p
        = (p.1 + (l.filter fun kw => 0 < keywordMatchCount cl kw).length,
           p.2 + (l.map fun kw => keywordMatchCount cl kw).sum) := by
    intro l
    induction l with
    | nil => intro p; simp
    | cons kw rest ih =>
      intro p
      by_cases h : 0 < keywordMatchCount cl kw
      · simp only [List.foldl_cons, if_pos h, ih, List.filter_cons,
          decide_eq_true_eq, h, if_true, List.length_cons, List.map_cons,
          List.sum_cons]
        simp only [Prod.mk.injEq]
        constructor <;> omega
      · have hz : keywordMatchCount cl kw = 0 := Nat.eq_zero_of_not_pos h
        simp [List.foldl_cons, if_neg h, ih, List.filter_cons, h, hz]
  have h0 := key keywords (0, 0)
  simpa [keywordFold] using h0

/-- **C2.** For every non-empty keyword list and document, the keyword
score equals `min((f/k)*0.6 + min((freq/w)*10, 0.4), 1)` where `f`
counts the keywords with a case-insensitive whole-word match (each
keyword counted once however often it occurs), `k` is the keyword
count, `freq` the total occurrence count over all keywords, and `w`
the document's whitespace-split word count plus one; the score always
lies in `[0, 1]`. -/
theorem keyword_score_spec (file_content : String) (keywords : List String)
    (h : keywords ≠ []) :
    (calculate_keyword_score file_content keywords
        = min (
            (((keywords.filter fun kw =>
                0 < keywordMatchCount (pyLower file_content) kw).length : ℚ)
              / (keywords.length : ℚ)) * (6 / 10)
            + min ((((keywords.map fun kw =>
                  keywordMatchCount (pyLower file_content) kw).sum : ℚ)
                / ((approximate_word_count file_content : ℚ) + 1)) * 10) (4 / 10)) 1)
      ∧ 0 ≤ calculate_keyword_score file_content keywords
      ∧ calculate_keyword_score file_content keywords ≤ 1 := by
  have heq : calculate_keyword_score file_content keywords
      = min (
          (((keywords.filter fun kw =>
              0 < keywordMatchCount (pyLower file_content) kw).length : ℚ)
            / (keywords.length : ℚ)) * (6 / 10)
          + min ((((keywords.map fun kw =>
                keywordMatchCount (pyLower file_content) kw).sum : ℚ)
              / ((approximate_word_count file_content : ℚ) + 1)) * 10) (4 / 10)) 1
      ∨ (calculate_keyword_score file_content keywords = 0
          ∧ (((keywords.filter fun kw =>
              0 < keywordMatchCount (pyLower file_content) kw).length : ℚ) = 0)
          ∧ (((keywords.map fun kw =>
              keywordMatchCount (pyLower file_content) kw).sum : ℚ) = 0)) := by
    unfold calculate_keyword_score
    by_cases hc : file_content = ""
    · subst hc
      have hcount : ∀ kw : String, keywordMatchCount (pyLower "") kw = 0 := by
        intro kw
        have hdata : (pyLower "").data = [] := rfl
        unfold keywordMatchCount
        rw [hdata, countWholeWord.eq_def]
        simp [atBoundary, wordCharOpt]
      have hfilter : (keywords.filter fun kw =>
          0 < keywordMatchCount (pyLower "") kw) = [] := by
        rw [List.filter_eq_nil_iff]
        intro kw _
        simp [hcount kw]
      have hsum : (keywords.map fun kw => keywordMatchCount (pyLower "") kw).sum = 0 := by
        rw [List.sum_eq_zero]
        intro x hx
        obtain ⟨kw, _, hkw⟩ := List.mem_map.1 hx
        rw [← hkw]
        exact hcount kw
      refine Or.inr ⟨by simp, ?_, ?_⟩
      · rw [hfilter]
        simp
      · rw [hsum]
        simp
    · have hke : keywords.isEmpty = false := by
        cases keywords with
        | nil => exact absurd rfl h
        | cons a as => rfl
      have hcb : (file_content == "") = false := beq_eq_false_iff_ne.mpr hc
      rw [hke, hcb]
      simp only [Bool.or_self, Bool.false_eq_true, if_false, keywordFold_spec]
      by_cases hf : ((keywords.filter fun kw =>
          0 < keywordMatchCount (pyLower file_content) kw).length) = 0
      · rw [if_pos hf]
        have hfil : (keywords.filter fun kw =>
            0 < keywordMatchCount (pyLower file_content) kw) = [] :=
          List.length_eq_zero.mp hf
        have hall : ∀ kw ∈ keywords, keywordMatchCount (pyLower file_content) kw = 0 := by
          intro kw hkw
          have := List.filter_eq_nil_iff.mp hfil kw hkw
          simpa using this
        have hsum : (keywords.map fun kw =>
            keywordMatchCount (pyLower file_content) kw).sum = 0 := by
          rw [List.sum_eq_zero]
          intro x hx
          obtain ⟨kw, hkw, hkx⟩ := List.mem_map.1 hx
          rw [← hkx]
          exact hall kw hkw
        refine Or.inr ⟨rfl, by rw [hf]; simp, by rw [hsum]; simp⟩
      · rw [if_neg hf]
        refine Or.inl ?_
        rw [← approximate_word_count_pyLower]
        rfl
  rcases heq with heq | ⟨hz, hfz, hsz⟩
  · refine ⟨heq, ?_, ?_⟩
    · rw [heq]
      positivity
    · rw [heq]
      exact min_le_right _ _
  · refine ⟨?_, ?_, ?_⟩
    · rw [hz, hfz, hsz]
      norm_num
    · rw [hz]
    · rw [hz]
      norm_num

/-- Witness for C2 at a concrete document and keyword list. -/
theorem keyword_score_spec_witness :
    (["alpha", "delta"] ≠ ([] : List String)) ∧
      (calculate_keyword_score "Alpha beta ALPHA gamma" ["alpha", "delta"]
          = min (
              (((["alpha", "delta"].filter fun kw =>
                  0 < keywordMatchCount (pyLower "Alpha beta ALPHA gamma") kw).length : ℚ)
                / ((["alpha", "delta"] : List String).length : ℚ)) * (6 / 10)
              + min ((((["alpha", "delta"].map fun kw =>
                    keywordMatchCount (pyLower "Alpha beta ALPHA gamma") kw).sum : ℚ)
                  / ((approximate_word_count "Alpha beta ALPHA gamma" : ℚ) + 1)) * 10)
                (4 / 10)) 1
        ∧ 0 ≤ calculate_keyword_score "Alpha beta ALPHA gamma" ["alpha", "delta"]
        ∧ calculate_keyword_score "Alpha beta ALPHA gamma" ["alpha", "delta"] ≤ 1) :=
  ⟨by decide,
    keyword_score_spec "Alpha beta ALPHA gamma" ["alpha", "delta"] (by decide)⟩

/-- Dropping a satisfied prefix twice is the same as once. -/
theorem dropWhile_dropWhile (p : Char → Bool) (l : List Char) :
    (l.dropWhile p).dropWhile p = l.dropWhile p := by
  induction l with
  | nil => rfl
  | cons a as ih =>
    by_cases h : p a = true
    · rw [List.dropWhile_cons_of_pos h]
      exact ih
    · rw [List.dropWhile_cons_of_neg h, List.dropWhile_cons_of_neg h]

/-- A prefix of a list `dropWhile` leaves unchanged is itself left
unchanged. -/
theorem dropWhile_eq_self_of_prefix (p : Char → Bool) {l m : List Char}
    (h : l.dropWhile p = l) (hm : m <+: l) : m.dropWhile p = m := by
  cases m with
  | nil => rfl
  | cons b bs =>
    cases l with
    | nil =>
      obtain ⟨t, ht⟩ := hm
      exact absurd ht (by simp)
    | cons a as =>
      have hb : b = a := by
        obtain ⟨t, ht⟩ := hm
        injection ht with h1 _
      have hpa : ¬ p a = true := by
        intro hp
        rw [List.dropWhile_cons_of_pos hp] at h
        have hlen := congrArg List.length h
        have hle := (List.dropWhile_sublist (l := as) p).length_le
        simp at hlen
        omega
      rw [hb]
      exact List.dropWhile_cons_of_neg hpa

theorem rstripList_idem (l : List Char) :
    rstripList (rstripList l) = rstripList l := by
  unfold rstripList
  rw [List.reverse_reverse, dropWhile_dropWhile]

/-- Left-stripping preserves the absence of trailing whitespace. -/
theorem rstrip_lstrip (l : List Char) (h : rstripList l = l) :
    rstripList (lstripList l) = lstripList l := by
  unfold rstripList at h ⊢
  unfold lstripList
  have h2 : l.reverse.dropWhile pyIsSpace = l.reverse := by
    have hrev := congrArg List.reverse h
    rwa [List.reverse_reverse] at hrev
  have hpref : (l.dropWhile pyIsSpace).reverse <+: l.reverse :=
    List.reverse_prefix.mpr (List.dropWhile_suffix pyIsSpace)
  have h3 : ((l.dropWhile pyIsSpace).reverse).dropWhile pyIsSpace
      = (l.dropWhile pyIsSpace).reverse :=
    dropWhile_eq_self_of_prefix pyIsSpace h2 hpref
  rw [h3, List.reverse_reverse]

/-- `str.strip()` is idempotent. -/
theorem pyStrip_idem (s : String) : pyStrip (pyStrip s) = pyStrip s := by
  show (⟨lstripList (rstripList (lstripList (rstripList s.data)))⟩ : String)
      = ⟨lstripList (rstripList s.data)⟩
  rw [rstrip_lstrip _ (rstripList_idem s.data)]
  show (⟨lstripList (lstripList (rstripList s.data))⟩ : String) = _
  unfold lstripList
  rw [dropWhile_dropWhile]

/-- **C10.** The content transformer ends in a whole-document strip:
with both switches off it returns exactly `content.strip()`, its output
never starts or ends with whitespace whatever the switches, and it is
not the identity function. -/
theorem transformer_final_strip (pythonStripper : String → String)
    (content language : String) (minify_ws strip_com : Bool) :
    process_content_for_llm pythonStripper content language false false
        = pyStrip content
    ∧ pyStrip (process_content_for_llm pythonStripper content language
          minify_ws strip_com)
        = process_content_for_llm pythonStripper content language
            minify_ws strip_com
    ∧ ∃ t : String, process_content_for_llm pythonStripper t language false false ≠ t := by
  refine ⟨rfl, ?_, ?_⟩
  · unfold process_content_for_llm
    exact pyStrip_idem _
  · refine ⟨" a", fun hcontra => ?_⟩
    have heq : pyStrip " a" = " a" := hcontra
    have hval : pyStrip " a" = "a" := by decide
    rw [hval] at heq
    exact absurd heq (by decide)

end Confluence
